import Mathlib

/-!
Shallow embedding of `exp.py` and of `relative_path2absolute` from
`modules/lower_layer_modules/FileSideEffects.py`: a CLI that translates a
WSL2 mount path (`/mnt/<drive>/...`) to the equivalent Windows path and
opens it with `explorer.exe`.

Paths are modelled by their constructor strings (`List Char`). The pieces
of the Python standard library the code leans on — `re.findall` with the
anchored pattern `^/mnt/([a-z])(/?.*)`, `re.match` with `^/mnt/[a-z]/`,
`pathlib.PurePosixPath` parsing / `as_posix`, `pathlib.PureWindowsPath`
parsing, `joinpath`, `str` and case-insensitive equality — are embedded
below. UNC (`\\server\share`) drive parsing is not modelled: no input
reachable by any claim produces a UNC `joinpath` argument. `Path.resolve`
is modelled lexically (a symlink-free filesystem).
-/

namespace Exp

/-- A Python string, as a list of characters. -/
abbrev Str := List Char

/-- ASCII lowercase letter: the regex character class `[a-z]`. -/
def isLowerAlpha (c : Char) : Bool := decide ('a' ≤ c) && decide (c ≤ 'z')

/-- ASCII uppercase letter. -/
def isUpperAlpha (c : Char) : Bool := decide ('A' ≤ c) && decide (c ≤ 'Z')

/-- ASCII lowering of one character (`str.lower` on the alphabet the code
can produce; `casefold` agrees with it there). -/
def asciiLower (c : Char) : Char :=
  if isUpperAlpha c then Char.ofNat (c.toNat + 32) else c

/-- ASCII raising of one character (`str.upper` likewise). -/
def asciiUpper (c : Char) : Char :=
  if isLowerAlpha c then Char.ofNat (c.toNat - 32) else c

/-- ASCII lowering of a string. -/
def lowerStr (s : Str) : Str := s.map asciiLower

/-- Split at every separator, keeping empty groups, as Python `str.split`
does: the first group paired with the remaining groups (so the result is
never empty). -/
def splitBy1 (p : Char → Bool) : Str → Str × List Str
  | [] => ([], [])
  | c :: rest =>
    if p c then ([], (splitBy1 p rest).1 :: (splitBy1 p rest).2)
    else (c :: (splitBy1 p rest).1, (splitBy1 p rest).2)

/-- All the groups of `splitBy1`. -/
def splitBy (p : Char → Bool) (s : Str) : List Str :=
  (splitBy1 p s).1 :: (splitBy1 p s).2

/-- Join components with a separator character (Python `sep.join`). -/
def joinSep (sep : Char) : List Str → Str
  | [] => []
  | [c] => c
  | c :: c₂ :: rest => c ++ sep :: joinSep sep (c₂ :: rest)

/-- Keep a parsed component: `pathlib` drops empty and `"."` components. -/
def keepComp (c : Str) : Bool := !c.isEmpty && !(c == ['.'])

/-- Number of leading `'/'` characters. -/
def leadSlashes (s : Str) : Nat := (s.takeWhile (fun c => c == '/')).length

/-- The root of `PurePosixPath(s)`: `"/"`, the POSIX-special `"//"` for
exactly two leading slashes, or nothing. -/
def posixRoot (s : Str) : Str :=
  if leadSlashes s == 0 then []
  else if leadSlashes s == 2 then ['/', '/']
  else ['/']

/-- The non-root components of `PurePosixPath(s).parts`. -/
def posixTail (s : Str) : List Str := (splitBy (fun c => c == '/') s).filter keepComp

/-- `PurePosixPath(s).parts`: the root, when there is one, followed by the
kept components. -/
def posixParts (s : Str) : List Str :=
  if (posixRoot s).isEmpty then posixTail s else posixRoot s :: posixTail s

/-- `PurePosixPath(s).as_posix()` (equally `str`): root and components
joined with `'/'`; `"."` for an empty path. -/
def asPosix (s : Str) : Str :=
  if (posixRoot s).isEmpty && (posixTail s).isEmpty then ['.']
  else posixRoot s ++ joinSep '/' (posixTail s)

/-- `re.findall(r"^/mnt/([a-z])(/?.*)", s)`. The pattern is anchored and
`re.MULTILINE` is off, so there is at most one match; `none` models the
empty match list. Group 2 (`/?.*`) runs to the end of the string or to the
first newline — `.` does not match `'\n'`. -/
def findallMnt : Str → Option (Char × Str)
  | '/' :: 'm' :: 'n' :: 't' :: '/' :: c :: rest =>
    if isLowerAlpha c then some (c, rest.takeWhile (fun ch => ch != '\n')) else none
  | _ => none

/-- A parsed `PureWindowsPath`: drive (such as `"c:"`), root (`"\"` or
nothing), and the remaining components. -/
structure WinPath where
  drive : Str
  root : Str
  tail : List Str
deriving DecidableEq, Repr

/-- Windows path separators. -/
def isWinSep (c : Char) : Bool := c == '/' || c == '\\'

/-- Drive extraction of `ntpath` for non-UNC strings: a non-separator
character followed by `':'`. -/
def winSplitDrive (s : Str) : Str × Str :=
  match s with
  | a :: b :: rest => if b == ':' && !isWinSep a then ([a, ':'], rest) else ([], s)
  | _ => ([], s)

/-- `PureWindowsPath(s)` parsing, UNC excluded: drive, then a root when a
separator follows, then the kept components (repeated separators collapse,
`"."` components drop). -/
def winParse (s : Str) : WinPath :=
  let dr := winSplitDrive s
  let root : Str :=
    match dr.2 with
    | c :: _ => if isWinSep c then ['\\'] else []
    | [] => []
  ⟨dr.1, root, (splitBy isWinSep dr.2).filter keepComp⟩

/-- One step of `PureWindowsPath.joinpath` (`ntpath.join` semantics): an
argument with a different drive replaces everything; a rooted argument
keeps the drive; otherwise its components are appended. The same-drive
comparison is case-insensitive. -/
def winJoin (b a : WinPath) : WinPath :=
  if !a.drive.isEmpty && !(lowerStr a.drive == lowerStr b.drive) then a
  else if !a.root.isEmpty then ⟨if a.drive.isEmpty then b.drive else a.drive, a.root, a.tail⟩
  else ⟨b.drive, b.root, b.tail ++ a.tail⟩

/-- `str(PureWindowsPath ...)`: drive, root, components joined with `'\'`;
`"."` when all are empty. -/
def winStr (p : WinPath) : Str :=
  if p.drive.isEmpty && p.root.isEmpty && p.tail.isEmpty then ['.']
  else p.drive ++ p.root ++ joinSep '\\' p.tail

/-- `PureWindowsPath.__eq__`: compares the case-folded string forms. -/
def winEq (p q : WinPath) : Bool := lowerStr (winStr p) == lowerStr (winStr q)

/-- The exceptions of `exp.py` the claims mention, each carrying its
message (`e.args[0]`). -/
inductive ExpError where
  | usage (msg : Str)
  | notInspectable (msg : Str)
deriving DecidableEq, Repr

/-- `__name__` of the module `exp` when imported, as `test_exp.py` does. -/
def moduleName : Str := "exp".data

/-- The message of the `UsageError` raised by `wsl2_full_path2windows_path`
(its argument already rendered by `as_posix`). -/
def usageMsg (t : Str) : Str :=
  "The input path ".data ++ t ++
    " is not a correct WSL2 path (function wsl2_full_path2windows_path in module ".data ++
    moduleName ++ ").\n".data

/-- `wsl2_full_path2windows_path` of `exp.py`: run the regex over
`wsl2_path.as_posix()`; an empty `findall` fails the unpacking with a
`ValueError`, re-raised as `UsageError`; otherwise fold `joinpath` over
`Path(remainder).parts` starting from `PureWindowsPath(f"{drive}:\\")`. -/
def wsl2_full_path2windows_path (wsl2_path : Str) : Except ExpError WinPath :=
  let t := asPosix wsl2_path
  match findallMnt t with
  | none => .error (.usage (usageMsg t))
  | some (drive, path) =>
    .ok ((posixParts path).foldl (fun reduced name => winJoin reduced (winParse name))
      (winParse [drive, ':', '\\', '\\']))

/-- `is_wsl2_path` of `exp.py`:
`re.match(r"^/mnt/[a-z]/", path.as_posix()) is not None`. -/
def is_wsl2_path (path : Str) : Bool :=
  match asPosix path with
  | '/' :: 'm' :: 'n' :: 't' :: '/' :: c :: '/' :: _ => isLowerAlpha c
  | _ => false

/-- The message of the `NotInspectableError` raised by `open_on_windows`. -/
def notInspectableMsg (t : Str) : Str :=
  "The specified path ".data ++ t ++
    " is not in the windows filesystem (function open_on_windows in module ".data ++
    moduleName ++ ").\n".data

/-- `open_on_windows` of `exp.py`: gate on `is_wsl2_path`, translate, and
hand `[explorer, windows_path]` to `subprocess.run` — the launch is
modelled as the returned pair; otherwise raise `NotInspectableError`. An
error from the translator propagates. -/
def open_on_windows (explorer path : Str) : Except ExpError (Str × WinPath) :=
  if is_wsl2_path path then
    match wsl2_full_path2windows_path path with
    | .ok w => .ok (explorer, w)
    | .error e => .error e
  else .error (.notInspectable (notInspectableMsg (asPosix path)))

/-- A path is absolute on POSIX exactly when it has a root. -/
def isAbsolutePath (s : Str) : Bool := !(posixRoot s).isEmpty

/-- The `".."`-elimination of `Path.resolve`, lexically, over already-split
components held as a reversed accumulator: `".."` pops (at the root it is
absorbed), everything else pushes. -/
def resolveDots : List Str → List Str → List Str
  | acc, [] => acc.reverse
  | acc, c :: rest =>
    if c == "..".data then resolveDots (acc.drop 1) rest
    else resolveDots (c :: acc) rest

/-- `PurePosixPath` `/`-join for the cases the code reaches (the right
operand relative). -/
def posixJoin (r p : Str) : Str :=
  if r.isEmpty then p else r ++ '/' :: p

/-- `Path.resolve()` against the current working directory `cwd` (an
absolute path): make absolute, then eliminate `"."` and `".."` lexically.
Symlinks are not modelled. -/
def pathResolve (cwd s : Str) : Str :=
  let absStr := if isAbsolutePath s then s else posixJoin cwd s
  '/' :: joinSep '/' (resolveDots [] (posixTail absStr))

/-- `relative_path2absolute` of `FileSideEffects.py`. `cwd` feeds the
`resolve()` calls. The defaulted base is `Path("..").resolve()` — the
parent of the current working directory — although the docstring says the
default is `./`. An absolute path is returned as `Path(path)`. -/
def relative_path2absolute (cwd : Str) (path : Str) (relative_to : Option Str) : Str :=
  let rel :=
    match relative_to with
    | none => pathResolve cwd "..".data
    | some r => r
  if !isAbsolutePath path then pathResolve cwd (posixJoin rel path)
  else path

/-- `get_path` of `exp.py` (reached only through the never-called
`read_options`): `Path(".").resolve()` when the argument is missing or
empty, else `Path(path_str).resolve()`. -/
def get_path (cwd : Str) (path_str : Option Str) : Str :=
  match path_str with
  | none => pathResolve cwd ".".data
  | some s => if s.isEmpty then pathResolve cwd ".".data else pathResolve cwd s

/-- What one run of `main` produces: a `sys.exit` with its code, what was
written to `stderr`, and the browser call that was launched — or an
exception no handler catches, which ends the interpreter with a
traceback. -/
inductive MainResult where
  | exit (code : Nat) (stderrOut : Option Str) (launched : Option (Str × WinPath))
  | uncaught (exc : Str)
deriving DecidableEq, Repr

/-- The fixed `Path("/mnt") / "c" / "Windows" / "explorer.exe"`. -/
def explorerPath : Str := "/mnt/c/Windows/explorer.exe".data

/-- The message carried by a handled exception. -/
def messageOf : ExpError → Str
  | .usage m => m
  | .notInspectable m => m

/-- `main` of `exp.py`. `osName` is `os.name`; `cwd` the current working
directory; `argv1` is `sys.argv[1]` when present — `main` reads it
directly, so a missing argument raises an uncaught `IndexError`;
`interrupted` injects a `KeyboardInterrupt` during the `try` block. The
`except` clauses write `e.args[0]` to `stderr` and `sys.exit(1)`; on
success `main` returns and the `__main__` guard runs `sys.exit(0)`. -/
def main (osName cwd : Str) (argv1 : Option Str) (interrupted : Bool) : MainResult :=
  if osName == "nt".data then .exit 1 none none
  else if interrupted then .exit 1 none none
  else
    match argv1 with
    | none => .uncaught "IndexError".data
    | some a =>
      let current_directory := pathResolve cwd ".".data
      let to_open := relative_path2absolute cwd a (some current_directory)
      match open_on_windows explorerPath to_open with
      | .ok call => .exit 0 none (some call)
      | .error e => .exit 1 (some (messageOf e)) none

/-- Modelled from the claim's words, for comparison only: the pattern
`^/mnt/<single-lowercase-letter>(/<rest>)?$` that claim C2 expects to
gate the translator. -/
def specMountPattern (s : Str) : Bool :=
  match s with
  | '/' :: 'm' :: 'n' :: 't' :: '/' :: c :: rest =>
    isLowerAlpha c && (rest.isEmpty || rest.head? == some '/')
  | _ => false

/-- A plain path component: nonempty, not `"."`, and free of the POSIX and
Windows separators, the drive colon and the newline — the characters the
translation pipeline treats specially. -/
def goodComp (c : Str) : Bool :=
  !c.isEmpty && !(c == ['.']) &&
    c.all fun ch => !(ch == '/') && !(ch == '\\') && !(ch == ':') && !(ch == '\n')

/-! ### Lemmas about splitting and joining -/

theorem splitBy1_sep_cons {p : Char → Bool} {c : Char} (h : p c = true) (ys : Str) :
    splitBy1 p (c :: ys) = ([], (splitBy1 p ys).1 :: (splitBy1 p ys).2) := by
  simp [splitBy1, h]

theorem splitBy1_cons_clean {p : Char → Bool} {c : Char} (h : p c = false) (ys : Str) :
    splitBy1 p (c :: ys) = (c :: (splitBy1 p ys).1, (splitBy1 p ys).2) := by
  simp [splitBy1, h]

theorem splitBy1_clean_append {p : Char → Bool} {u : Str} (h : ∀ c ∈ u, p c = false)
    (ys : Str) : splitBy1 p (u ++ ys) = (u ++ (splitBy1 p ys).1, (splitBy1 p ys).2) := by
  induction u with
  | nil => simp
  | cons c rest ih =>
    have hc : p c = false := h c (by simp)
    have hrest : ∀ x ∈ rest, p x = false := fun x hx => h x (by simp [hx])
    simp [splitBy1, hc, ih hrest]

theorem splitBy1_joinSep {p : Char → Bool} {k : Char} (hsep : p k = true) :
    ∀ (c : Str) (cs : List Str), (∀ x ∈ c :: cs, ∀ ch ∈ x, p ch = false) →
      splitBy1 p (joinSep k (c :: cs)) = (c, cs)
  | c, [], h => by
    have h1 := splitBy1_clean_append (p := p) (fun ch hch => h c (by simp) ch hch) []
    simpa [joinSep, splitBy1] using h1
  | c, c₂ :: cs, h => by
    have ih := splitBy1_joinSep hsep c₂ cs fun x hx ch hch =>
      h x (by simp at hx ⊢; tauto) ch hch
    have h1 := splitBy1_clean_append (p := p) (fun ch hch => h c (by simp) ch hch)
      (k :: joinSep k (c₂ :: cs))
    rw [joinSep, h1, splitBy1_sep_cons hsep, ih]
    simp

theorem joinSep_chars {sep : Char} :
    ∀ (l : List Str) (ch : Char), ch ∈ joinSep sep l → ch = sep ∨ ∃ x ∈ l, ch ∈ x
  | [], ch, h => by simp [joinSep] at h
  | [c], ch, h => by
    right; exact ⟨c, by simp, by simpa [joinSep] using h⟩
  | c :: c₂ :: cs, ch, h => by
    simp only [joinSep, List.mem_append, List.mem_cons] at h
    rcases h with h | h | h
    · right; exact ⟨c, by simp, h⟩
    · left; exact h
    · rcases joinSep_chars (c₂ :: cs) ch h with h | ⟨x, hx, hchx⟩
      · left; exact h
      · right
        refine ⟨x, ?_, hchx⟩
        simp at hx ⊢; tauto

/-! ### Lemmas about characters -/

theorem lower_ge_a {d : Char} (hd : isLowerAlpha d = true) : 'a' ≤ d := by
  simp [isLowerAlpha, Bool.and_eq_true, decide_eq_true_eq] at hd
  exact hd.1

theorem lower_char_ne {d c : Char} (hd : isLowerAlpha d = true) (hc : c < 'a') :
    (d == c) = false := by
  have h2 : c < d := lt_of_lt_of_le hc (lower_ge_a hd)
  simp [beq_eq_false_iff_ne]
  exact ne_of_gt h2

theorem lower_not_winSep {d : Char} (hd : isLowerAlpha d = true) : isWinSep d = false := by
  simp [isWinSep, lower_char_ne hd (by decide : '/' < 'a'),
    lower_char_ne hd (by decide : '\\' < 'a')]

theorem lower_keepComp {d : Char} (hd : isLowerAlpha d = true) : keepComp [d] = true := by
  simp [keepComp, List.isEmpty, lower_char_ne hd (by decide : '.' < 'a')]

/-! ### Lemmas about good components -/

theorem goodComp_keep {c : Str} (h : goodComp c = true) : keepComp c = true := by
  simp only [goodComp, Bool.and_eq_true] at h
  simp [keepComp, h.1.1, h.1.2]

theorem goodComp_chars {c : Str} (h : goodComp c = true) :
    ∀ ch ∈ c, (ch == '/') = false ∧ (ch == '\\') = false ∧
      (ch == ':') = false ∧ (ch == '\n') = false := by
  simp only [goodComp, Bool.and_eq_true, List.all_eq_true] at h
  intro ch hch
  have h2 := h.2 ch hch
  simp only [Bool.and_eq_true, beq_eq_false_iff_ne, Bool.not_eq_true'] at h2 ⊢
  tauto

theorem goodComp_ne_nil {c : Str} (h : goodComp c = true) : c ≠ [] := by
  simp only [goodComp, Bool.and_eq_true] at h
  have h2 := h.1.1
  simpa [List.isEmpty_iff] using h2

/-! ### Lemmas about ASCII case -/

theorem charLe_iff {a b : Char} : a ≤ b ↔ a.toNat ≤ b.toNat := by
  simp [Char.le_def, UInt32.le_def, BitVec.le_def]
  rfl

theorem toNatOfNatSmall {n : Nat} (h : n < 55296) : (Char.ofNat n).toNat = n := by
  rw [Char.ofNat, dif_pos (Or.inl h : Nat.isValidChar n)]
  simp [Char.ofNatAux, Char.toNat, UInt32.toNat, UInt32.ofNat', BitVec.toNat_ofNat]

theorem lowerCharBounds {d : Char} (hd : isLowerAlpha d = true) :
    97 ≤ d.toNat ∧ d.toNat ≤ 122 := by
  simp [isLowerAlpha, Char.le_def, UInt32.le_def, BitVec.le_def] at hd
  exact hd

theorem asciiLower_fix {d : Char} (hd : isLowerAlpha d = true) : asciiLower d = d := by
  obtain ⟨h1, _⟩ := lowerCharBounds hd
  have h2 : isUpperAlpha d = false := by
    have h3 : ¬ (d ≤ 'Z') := by rw [charLe_iff]; simp; omega
    simp [isUpperAlpha, h3]
  simp [asciiLower, h2]

theorem asciiLower_asciiUpper {d : Char} (hd : isLowerAlpha d = true) :
    asciiLower (asciiUpper d) = d := by
  obtain ⟨h1, h2⟩ := lowerCharBounds hd
  have hu : (Char.ofNat (d.toNat - 32)).toNat = d.toNat - 32 := toNatOfNatSmall (by omega)
  have hup : isUpperAlpha (Char.ofNat (d.toNat - 32)) = true := by
    have hA : ('A').toNat = 65 := rfl
    have hZ : ('Z').toNat = 90 := rfl
    simp [isUpperAlpha, charLe_iff, hu, hA, hZ]
    omega
  rw [asciiUpper, if_pos hd, asciiLower, if_pos hup, hu]
  have h3 : d.toNat - 32 + 32 = d.toNat := by omega
  rw [h3, Char.ofNat_toNat]

/-! ### Lemmas about the Windows-path side -/

theorem winParse_goodComp {c : Str} (h : goodComp c = true) : winParse c = ⟨[], [], [c]⟩ := by
  obtain ⟨ch, c', rfl⟩ : ∃ ch c', c = ch :: c' := by
    cases c with
    | nil => exact absurd rfl (goodComp_ne_nil h)
    | cons ch c' => exact ⟨ch, c', rfl⟩
  have hch := goodComp_chars h
  have hdr : winSplitDrive (ch :: c') = ([], ch :: c') := by
    cases c' with
    | nil => rfl
    | cons b r =>
      have hb : (b == ':') = false := (hch b (by simp)).2.2.1
      simp [winSplitDrive, hb]
  have hsep : isWinSep ch = false := by
    have h1 := hch ch (by simp)
    simp [isWinSep, h1.1, h1.2.1]
  have hsplit : splitBy1 isWinSep (ch :: c') = (ch :: c', []) := by
    have h1 := splitBy1_clean_append (p := isWinSep)
      (u := ch :: c') (fun x hx => by
        have h2 := hch x hx
        simp [isWinSep, h2.1, h2.2.1]) []
    simpa [splitBy1] using h1
  simp [winParse, hdr, hsep, splitBy, hsplit, goodComp_keep h]

theorem winJoin_goodComp (b : WinPath) {c : Str} (h : goodComp c = true) :
    winJoin b (winParse c) = ⟨b.drive, b.root, b.tail ++ [c]⟩ := by
  rw [winParse_goodComp h]
  simp [winJoin]

theorem fold_goodComps {comps : List Str} (h : ∀ c ∈ comps, goodComp c = true) :
    ∀ b : WinPath,
      comps.foldl (fun reduced name => winJoin reduced (winParse name)) b
        = ⟨b.drive, b.root, b.tail ++ comps⟩ := by
  induction comps with
  | nil => intro b; simp
  | cons c cs ih =>
    intro b
    rw [List.foldl_cons, winJoin_goodComp b (h c (by simp)),
      ih (fun x hx => h x (by simp [hx]))]
    simp

/-! ### The translator on a well-formed mount path -/

theorem splitBy1_joinSep_good {c : Str} {cs : List Str}
    (hgood : ∀ x ∈ c :: cs, goodComp x = true) :
    splitBy1 (fun ch => ch == '/') (joinSep '/' (c :: cs)) = (c, cs) :=
  splitBy1_joinSep (by decide) c cs fun x hx ch hch => (goodComp_chars (hgood x hx) ch hch).1

theorem filter_keep_good {cs : List Str} (h : ∀ x ∈ cs, goodComp x = true) :
    cs.filter keepComp = cs :=
  List.filter_eq_self.mpr fun x hx => goodComp_keep (h x hx)

theorem takeWhile_slash_joinSep {c : Str} {l : List Str} (hc : goodComp c = true) :
    (joinSep '/' (c :: l)).takeWhile (fun ch => ch == '/') = [] := by
  obtain ⟨ch, c', rfl⟩ : ∃ ch c', c = ch :: c' := by
    cases c with
    | nil => exact absurd rfl (goodComp_ne_nil hc)
    | cons ch c' => exact ⟨ch, c', rfl⟩
  have h1 : (ch == '/') = false := (goodComp_chars hc ch (by simp)).1
  cases l with
  | nil => simp [joinSep, h1]
  | cons c₂ cs' => simp [joinSep, h1]

theorem posixParts_root_good {c : Str} {cs : List Str}
    (hgood : ∀ x ∈ c :: cs, goodComp x = true) :
    posixParts ('/' :: joinSep '/' (c :: cs)) = ['/'] :: c :: cs := by
  have hc := hgood c (by simp)
  have htw := takeWhile_slash_joinSep (l := cs) hc
  have hlead : leadSlashes ('/' :: joinSep '/' (c :: cs)) = 1 := by
    simp [leadSlashes, List.takeWhile_cons, htw]
  have hroot : posixRoot ('/' :: joinSep '/' (c :: cs)) = ['/'] := by
    simp [posixRoot, hlead]
  have e1 : splitBy1 (fun ch => ch == '/') ('/' :: joinSep '/' (c :: cs))
      = ([], c :: cs) := by
    rw [splitBy1_sep_cons (by decide), splitBy1_joinSep_good hgood]
  have e2 : keepComp ([] : Str) = false := by decide
  have htail : posixTail ('/' :: joinSep '/' (c :: cs)) = c :: cs := by
    simp [posixTail, splitBy, e1, e2, filter_keep_good hgood]
  simp [posixParts, hroot, htail]

theorem translate_mount {d : Char} {c : Str} {cs : List Str}
    (hd : isLowerAlpha d = true) (hgood : ∀ x ∈ c :: cs, goodComp x = true) :
    wsl2_full_path2windows_path
        ('/' :: 'm' :: 'n' :: 't' :: '/' :: d :: '/' :: joinSep '/' (c :: cs))
      = .ok ⟨[d, ':'], ['\\'], c :: cs⟩ := by
  have hd2 : (d == '/') = false := lower_char_ne hd (by decide)
  have hsplit := splitBy1_joinSep_good hgood
  have e3 : splitBy1 (fun ch => ch == '/')
      ('/' :: 'm' :: 'n' :: 't' :: '/' :: d :: '/' :: joinSep '/' (c :: cs))
      = ([], ['m', 'n', 't'] :: [d] :: c :: cs) := by
    simp [splitBy1, hd2, hsplit]
  have e2 : keepComp ([] : Str) = false := by decide
  have e4 : keepComp ['m', 'n', 't'] = true := by decide
  have htail : posixTail
      ('/' :: 'm' :: 'n' :: 't' :: '/' :: d :: '/' :: joinSep '/' (c :: cs))
      = ['m', 'n', 't'] :: [d] :: c :: cs := by
    simp [posixTail, splitBy, e3, e2, e4, lower_keepComp hd, filter_keep_good hgood]
  have hroot : posixRoot
      ('/' :: 'm' :: 'n' :: 't' :: '/' :: d :: '/' :: joinSep '/' (c :: cs)) = ['/'] := rfl
  have hAs : asPosix ('/' :: 'm' :: 'n' :: 't' :: '/' :: d :: '/' :: joinSep '/' (c :: cs))
      = '/' :: 'm' :: 'n' :: 't' :: '/' :: d :: '/' :: joinSep '/' (c :: cs) := by
    simp only [asPosix, hroot, htail]
    simp [joinSep]
  have hnl : ∀ ch ∈ ('/' :: joinSep '/' (c :: cs)), (ch != '\n') = true := by
    intro ch hch
    rcases List.mem_cons.mp hch with rfl | hch
    · decide
    · rcases joinSep_chars _ ch hch with rfl | ⟨x, hx, hchx⟩
      · decide
      · have h5 := (goodComp_chars (hgood x hx) ch hchx).2.2.2
        simpa using h5
  have htws : ('/' :: joinSep '/' (c :: cs)).takeWhile (fun ch => ch != '\n')
      = '/' :: joinSep '/' (c :: cs) := by
    rw [List.takeWhile_eq_self_iff]
    intro x hx
    simpa using hnl x hx
  have hfa : findallMnt ('/' :: 'm' :: 'n' :: 't' :: '/' :: d :: '/' :: joinSep '/' (c :: cs))
      = some (d, '/' :: joinSep '/' (c :: cs)) := by
    simp [findallMnt, hd, htws]
  have hinit : winParse [d, ':', '\\', '\\'] = ⟨[d, ':'], ['\\'], []⟩ := by
    have h6 : ¬ d = '/' := by simpa using lower_char_ne hd (by decide : '/' < 'a')
    have h7 : ¬ d = '\\' := by simpa using lower_char_ne hd (by decide : '\\' < 'a')
    simp [winParse, winSplitDrive, splitBy, splitBy1, keepComp, isWinSep, h6, h7]
  have hslash : winParse ['/'] = ⟨[], ['\\'], []⟩ := by decide
  have hj : winJoin ⟨[d, ':'], ['\\'], []⟩ ⟨[], ['\\'], []⟩ = ⟨[d, ':'], ['\\'], []⟩ := by
    simp [winJoin]
  simp only [wsl2_full_path2windows_path, hAs, hfa]
  rw [posixParts_root_good hgood, hinit, List.foldl_cons, hslash, hj,
    fold_goodComps (fun x hx => hgood x hx)]
  simp

/-! ### The regex match and the classifier, as shape conditions -/

theorem findallMnt_none_iff (t : Str) :
    findallMnt t = none ↔
      ¬ ∃ d rest, isLowerAlpha d = true ∧
        t = '/' :: 'm' :: 'n' :: 't' :: '/' :: d :: rest := by
  unfold findallMnt
  split
  next c rest =>
    by_cases hc : isLowerAlpha c = true
    · simp [hc]
    · simp [hc]
  next h =>
    simp
    intro d hd rest heq
    exact h d rest heq

theorem findallMnt_some_shape {t : Str} {x : Char × Str} (h : findallMnt t = some x) :
    ∃ d rest, isLowerAlpha d = true ∧
      t = '/' :: 'm' :: 'n' :: 't' :: '/' :: d :: rest := by
  unfold findallMnt at h
  split at h
  next c rest =>
    by_cases hc : isLowerAlpha c = true
    · exact ⟨c, rest, hc, rfl⟩
    · simp [hc] at h
  next => simp at h

theorem is_wsl2_path_iff (s : Str) :
    is_wsl2_path s = true ↔ ∃ c r, isLowerAlpha c = true ∧
      asPosix s = '/' :: 'm' :: 'n' :: 't' :: '/' :: c :: '/' :: r := by
  unfold is_wsl2_path
  split
  next c r heq =>
    constructor
    · intro hc
      exact ⟨c, r, hc, heq⟩
    · rintro ⟨c', r', hc', heq'⟩
      rw [heq] at heq'
      simp at heq'
      rcases heq' with ⟨rfl, rfl⟩
      exact hc'
  next h =>
    simp
    intro c hc r heq
    exact h c r heq

theorem translate_ok_of_classifier {s : Str} (h : is_wsl2_path s = true) :
    ∃ w, wsl2_full_path2windows_path s = .ok w := by
  obtain ⟨c, r, hc, heq⟩ := (is_wsl2_path_iff s).mp h
  have hfa : findallMnt (asPosix s)
      = some (c, ('/' :: r).takeWhile (fun ch => ch != '\n')) := by
    rw [heq]
    simp [findallMnt, hc]
  refine ⟨(posixParts (('/' :: r).takeWhile (fun ch => ch != '\n'))).foldl
      (fun reduced name => winJoin reduced (winParse name)) (winParse [c, ':', '\\', '\\']), ?_⟩
  simp only [wsl2_full_path2windows_path, hfa]

/-! ### The error messages carry the path, the function and the module -/

theorem usageMsg_names (t : Str) :
    t <:+: usageMsg t ∧ "wsl2_full_path2windows_path".data <:+: usageMsg t ∧
      moduleName <:+: usageMsg t := by
  refine ⟨⟨"The input path ".data, ?_, ?_⟩, ?_, ?_⟩
  · exact " is not a correct WSL2 path (function wsl2_full_path2windows_path in module ".data
      ++ moduleName ++ ").\n".data
  · simp [usageMsg]
  · refine ⟨"The input path ".data ++ t ++ " is not a correct WSL2 path (function ".data,
      " in module ".data ++ moduleName ++ ").\n".data, ?_⟩
    have hchunk :
        " is not a correct WSL2 path (function ".data
          ++ "wsl2_full_path2windows_path".data ++ " in module ".data
        = " is not a correct WSL2 path (function wsl2_full_path2windows_path in module ".data :=
      by decide
    simp only [usageMsg, ← hchunk]
    simp
  · refine ⟨"The input path ".data ++ t
      ++ " is not a correct WSL2 path (function wsl2_full_path2windows_path in module ".data,
      ").\n".data, ?_⟩
    simp [usageMsg]

theorem notInspectableMsg_names (t : Str) :
    t <:+: notInspectableMsg t ∧ "open_on_windows".data <:+: notInspectableMsg t ∧
      moduleName <:+: notInspectableMsg t := by
  refine ⟨⟨"The specified path ".data, ?_, ?_⟩, ?_, ?_⟩
  · exact " is not in the windows filesystem (function open_on_windows in module ".data
      ++ moduleName ++ ").\n".data
  · simp [notInspectableMsg]
  · refine ⟨"The specified path ".data ++ t
      ++ " is not in the windows filesystem (function ".data,
      " in module ".data ++ moduleName ++ ").\n".data, ?_⟩
    have hchunk :
        " is not in the windows filesystem (function ".data
          ++ "open_on_windows".data ++ " in module ".data
        = " is not in the windows filesystem (function open_on_windows in module ".data :=
      by decide
    simp only [notInspectableMsg, ← hchunk]
    simp
  · refine ⟨"The specified path ".data ++ t
      ++ " is not in the windows filesystem (function open_on_windows in module ".data,
      ").\n".data, ?_⟩
    simp [notInspectableMsg]

/-! ### Drive preservation through the fold -/

theorem winParse_drivePrefix {d : Char} (hd : isLowerAlpha d = true) :
    winParse [d, ':', '\\', '\\'] = ⟨[d, ':'], ['\\'], []⟩ := by
  have h6 : ¬ d = '/' := by simpa using lower_char_ne hd (by decide : '/' < 'a')
  have h7 : ¬ d = '\\' := by simpa using lower_char_ne hd (by decide : '\\' < 'a')
  simp [winParse, winSplitDrive, splitBy, splitBy1, keepComp, isWinSep, h6, h7]

theorem splitBy1_chars {p : Char → Bool} :
    ∀ s : Str, (∀ ch ∈ (splitBy1 p s).1, ch ∈ s) ∧
      ∀ x ∈ (splitBy1 p s).2, ∀ ch ∈ x, ch ∈ s
  | [] => by simp [splitBy1]
  | c :: rest => by
    have ih := splitBy1_chars (p := p) rest
    by_cases hc : p c = true
    · simp only [splitBy1, hc, if_true]
      constructor
      · simp
      · intro x hx ch hch
        rcases List.mem_cons.mp hx with rfl | hx2
        · exact List.mem_cons_of_mem _ (ih.1 ch hch)
        · exact List.mem_cons_of_mem _ (ih.2 x hx2 ch hch)
    · have hc2 : p c = false := by simpa using hc
      simp only [splitBy1, hc2, Bool.false_eq_true, if_false]
      constructor
      · intro ch hch
        rcases List.mem_cons.mp hch with rfl | h2
        · simp
        · exact List.mem_cons_of_mem _ (ih.1 ch h2)
      · intro x hx ch hch
        exact List.mem_cons_of_mem _ (ih.2 x hx ch hch)

theorem posixTail_chars {s x : Str} {ch : Char} (hx : x ∈ posixTail s) (hch : ch ∈ x) :
    ch ∈ s := by
  unfold posixTail at hx
  have hx2 := List.mem_of_mem_filter hx
  unfold splitBy at hx2
  rcases List.mem_cons.mp hx2 with rfl | h2
  · exact (splitBy1_chars s).1 ch hch
  · exact (splitBy1_chars s).2 x h2 ch hch

theorem posixRoot_cases (s : Str) :
    posixRoot s = [] ∨ posixRoot s = ['/'] ∨ posixRoot s = ['/', '/'] := by
  unfold posixRoot
  split
  · exact Or.inl rfl
  · split
    · exact Or.inr (Or.inr rfl)
    · exact Or.inr (Or.inl rfl)

theorem winParse_no_drive {x : Str} (h : ∀ ch ∈ x, (ch == ':') = false) :
    (winParse x).drive = [] := by
  match x with
  | [] => rfl
  | [a] => rfl
  | a :: b :: r =>
    have hb : (b == ':') = false := h b (by simp)
    simp [winParse, winSplitDrive, hb]

theorem winParse_root_cases (x : Str) :
    (winParse x).root = [] ∨ (winParse x).root = ['\\'] := by
  unfold winParse
  dsimp only
  split
  · split
    · exact Or.inr rfl
    · exact Or.inl rfl
  · exact Or.inl rfl

theorem fold_drive_root {parts : List Str}
    (h : ∀ x ∈ parts, (winParse x).drive = []) :
    ∀ b : WinPath, b.root = ['\\'] →
      (parts.foldl (fun reduced name => winJoin reduced (winParse name)) b).drive = b.drive ∧
      (parts.foldl (fun reduced name => winJoin reduced (winParse name)) b).root = ['\\'] := by
  induction parts with
  | nil => exact fun b hb => ⟨rfl, hb⟩
  | cons x xs ih =>
    intro b hb
    have hx := h x (by simp)
    have hstep : (winJoin b (winParse x)).drive = b.drive ∧
        (winJoin b (winParse x)).root = ['\\'] := by
      rcases winParse_root_cases x with hr | hr
      · simp [winJoin, hx, hr, hb]
      · simp [winJoin, hx, hr]
    have hrec := ih (fun y hy => h y (by simp [hy])) (winJoin b (winParse x)) hstep.2
    rw [List.foldl_cons]
    exact ⟨hrec.1.trans hstep.1, hrec.2⟩

/-! ### Resolution of `..` -/

theorem splitBy1_joinSep_extend {p : Char → Bool} {k : Char} (hsep : p k = true) :
    ∀ (c : Str) (cs : List Str) (ys : Str),
      (∀ x ∈ c :: cs, ∀ ch ∈ x, p ch = false) →
      splitBy1 p (joinSep k (c :: cs) ++ k :: ys)
        = (c, cs ++ (splitBy1 p ys).1 :: (splitBy1 p ys).2)
  | c, [], ys, h => by
    have h1 := splitBy1_clean_append (p := p) (fun ch hch => h c (by simp) ch hch)
      (k :: ys)
    rw [joinSep, h1, splitBy1_sep_cons hsep]
    simp
  | c, c₂ :: cs, ys, h => by
    have ih := splitBy1_joinSep_extend hsep c₂ cs ys fun x hx ch hch =>
      h x (by simp at hx ⊢; tauto) ch hch
    have h1 := splitBy1_clean_append (p := p) (fun ch hch => h c (by simp) ch hch)
      (k :: (joinSep k (c₂ :: cs) ++ k :: ys))
    rw [joinSep, List.append_assoc, List.cons_append, h1, splitBy1_sep_cons hsep, ih]
    simp

theorem resolveDots_push {cs : List Str} (h : ∀ x ∈ cs, ¬ x = "..".data) :
    ∀ acc rest : List Str, resolveDots acc (cs ++ rest) = resolveDots (cs.reverse ++ acc) rest := by
  induction cs with
  | nil => intro acc rest; simp
  | cons c cs' ih =>
    intro acc rest
    have hc : (c == "..".data) = false := by
      have h2 := h c (by simp)
      simpa using h2
    rw [List.cons_append, resolveDots, if_neg (by simp [hc] : ¬ (c == "..".data) = true),
      ih (fun x hx => h x (by simp [hx])) (c :: acc) rest]
    simp

theorem pathResolve_parent {cs : List Str}
    (hg : ∀ x ∈ cs, goodComp x = true) (hdd : ∀ x ∈ cs, ¬ x = "..".data) :
    pathResolve ('/' :: joinSep '/' cs) "..".data = '/' :: joinSep '/' cs.dropLast := by
  cases cs with
  | nil => rfl
  | cons c cs' =>
    have hsp := splitBy1_joinSep_extend (p := fun ch => ch == '/') (k := '/') (by decide) c cs' "..".data
      (fun x hx ch hch => (goodComp_chars (hg x hx) ch hch).1)
    have hdots : splitBy1 (fun ch => ch == '/') "..".data = ("..".data, []) := by decide
    rw [hdots] at hsp
    have habs : pathResolve ('/' :: joinSep '/' (c :: cs')) "..".data
        = '/' :: joinSep '/'
            (resolveDots [] (posixTail ('/' :: (joinSep '/' (c :: cs') ++ '/' :: "..".data)))) := by
      simp [pathResolve, isAbsolutePath, posixRoot, leadSlashes, posixJoin]
    have htail : posixTail ('/' :: (joinSep '/' (c :: cs') ++ '/' :: "..".data))
        = (c :: cs') ++ ["..".data] := by
      have e1 : splitBy1 (fun ch => ch == '/')
          ('/' :: (joinSep '/' (c :: cs') ++ '/' :: "..".data))
          = ([], c :: (cs' ++ ["..".data])) := by
        rw [splitBy1_sep_cons (by decide), hsp]
      have e2 : keepComp ([] : Str) = false := by decide
      have e3 : keepComp "..".data = true := by decide
      have e4 : (c :: (cs' ++ ["..".data])).filter keepComp = c :: (cs' ++ ["..".data]) := by
        refine List.filter_eq_self.mpr fun x hx => ?_
        rcases List.mem_cons.mp hx with rfl | hx2
        · exact goodComp_keep (hg x (by simp))
        · rcases List.mem_append.mp hx2 with hx3 | hx3
          · exact goodComp_keep (hg x (by simp [hx3]))
          · simp at hx3
            rw [hx3]
            exact e3
      simp [posixTail, splitBy, e1, e2, e4]
    have hres : resolveDots [] ((c :: cs') ++ ["..".data]) = (c :: cs').dropLast := by
      rw [resolveDots_push hdd [] ["..".data], resolveDots, if_pos (by simp)]
      rw [resolveDots]
      simp only [List.append_nil]
      rw [List.drop_one, List.tail_reverse, List.reverse_reverse]
    rw [habs, htail, hres]

/-! ## The claims -/

/-- C1: for every lowercase ASCII drive letter `d` and every nonempty
sequence of plain path components, translating `/mnt/<d>/<join(s)>` returns
the Windows path with drive root `<d>:\` — a value that compares equal,
under the case-insensitive `PureWindowsPath` equality the repository's own
tests use, to the path with the uppercased drive `D:\` — followed by
exactly the components in their original order, none lost, reordered or
duplicated; re-splitting the rendered result on the Windows separator
recovers the drive segment followed by exactly the original component
sequence. -/
theorem claim_C1_mount_translation (d : Char) (c : Str) (cs : List Str)
    (hd : isLowerAlpha d = true) (hgood : ∀ x ∈ c :: cs, goodComp x = true) :
    wsl2_full_path2windows_path
        ('/' :: 'm' :: 'n' :: 't' :: '/' :: d :: '/' :: joinSep '/' (c :: cs))
      = .ok ⟨[d, ':'], ['\\'], c :: cs⟩ ∧
    winEq ⟨[d, ':'], ['\\'], c :: cs⟩ ⟨[asciiUpper d, ':'], ['\\'], c :: cs⟩ = true ∧
    splitBy (fun ch => ch == '\\') (winStr ⟨[d, ':'], ['\\'], c :: cs⟩)
      = [d, ':'] :: c :: cs := by
  refine ⟨translate_mount hd hgood, ?_, ?_⟩
  · have e : asciiLower (asciiUpper d) = asciiLower d := by
      rw [asciiLower_asciiUpper hd, asciiLower_fix hd]
    simp [winEq, winStr, lowerStr, e]
  · have h1 := splitBy1_clean_append (p := fun ch => ch == '\\') (u := [d, ':'])
      (fun x hx => by
        rcases List.mem_cons.mp hx with rfl | hx2
        · exact lower_char_ne hd (by decide)
        · simp at hx2
          rw [hx2]
          decide)
      ('\\' :: joinSep '\\' (c :: cs))
    have h2 := splitBy1_joinSep (p := fun ch => ch == '\\') (k := '\\') (by decide) c cs
      (fun x hx ch hch => (goodComp_chars (hgood x hx) ch hch).2.1)
    have hw : winStr ⟨[d, ':'], ['\\'], c :: cs⟩
        = [d, ':'] ++ '\\' :: joinSep '\\' (c :: cs) := by
      simp [winStr]
    rw [hw]
    unfold splitBy
    rw [h1, splitBy1_sep_cons (by decide), h2]
    simp

/-- C1 witness: the translation of `/mnt/c/home/u`, with components
`["home", "u"]`, evaluated concretely through the theorem. -/
theorem claim_C1_mount_translation_witness :
    wsl2_full_path2windows_path
        ('/' :: 'm' :: 'n' :: 't' :: '/' :: 'c' :: '/' :: joinSep '/' ["home".data, "u".data])
      = .ok ⟨['c', ':'], ['\\'], ["home".data, "u".data]⟩ ∧
    winEq ⟨['c', ':'], ['\\'], ["home".data, "u".data]⟩
      ⟨[asciiUpper 'c', ':'], ['\\'], ["home".data, "u".data]⟩ = true ∧
    splitBy (fun ch => ch == '\\') (winStr ⟨['c', ':'], ['\\'], ["home".data, "u".data]⟩)
      = ['c', ':'] :: ["home".data, "u".data] :=
  claim_C1_mount_translation 'c' "home".data ["u".data] (by decide) (by decide)

/-- C2 counterexample: `/mnt/cfoo` does not match the claimed pattern
`^/mnt/<letter>(/<rest>)?$`, yet the translator does not raise — the
regex's `(/?.*)` group makes the separator optional, so it returns
`c:\foo`. -/
theorem claim_C2_counterexample :
    specMountPattern (asPosix "/mnt/cfoo".data) = false ∧
    wsl2_full_path2windows_path "/mnt/cfoo".data
      = .ok ⟨['c', ':'], ['\\'], ["foo".data]⟩ :=
  ⟨by decide, rfl⟩

/-- C2 amended: the translator raises `UsageError` — whose message names
the offending path (its `as_posix` rendering), the function name and the
module name — exactly when the path's POSIX rendering does not begin with
`/mnt/` followed by a single lowercase letter; a trailing separator is not
required, so inputs such as `/mnt/cfoo` are accepted. -/
theorem claim_C2_amended_usage_error (s : Str) :
    (wsl2_full_path2windows_path s = .error (.usage (usageMsg (asPosix s)))
      ↔ ¬ ∃ d rest, isLowerAlpha d = true ∧
          asPosix s = '/' :: 'm' :: 'n' :: 't' :: '/' :: d :: rest) ∧
    (asPosix s) <:+: usageMsg (asPosix s) ∧
    "wsl2_full_path2windows_path".data <:+: usageMsg (asPosix s) ∧
    moduleName <:+: usageMsg (asPosix s) := by
  refine ⟨?_, (usageMsg_names (asPosix s)).1, (usageMsg_names (asPosix s)).2.1,
    (usageMsg_names (asPosix s)).2.2⟩
  constructor
  · intro h
    cases hfa : findallMnt (asPosix s) with
    | none => exact (findallMnt_none_iff _).mp hfa
    | some x =>
      exfalso
      obtain ⟨dd, g2⟩ := x
      simp only [wsl2_full_path2windows_path, hfa] at h
      exact absurd h (by simp)
  · intro h
    have hfa : findallMnt (asPosix s) = none := (findallMnt_none_iff _).mpr h
    simp only [wsl2_full_path2windows_path, hfa]

/-- C3: the classifier is true exactly when the POSIX rendering starts with
`/mnt/`, a single lowercase letter and a separator; in particular it is
true on `/mnt/c/home` and false on `/home/user`, on the empty path (whose
rendering is `.`), on the bare root `/mnt/c`, and on uppercase or
multi-character drive segments. It is a total boolean function of the
path — it cannot raise and has no side effects. -/
theorem claim_C3_classifier_iff :
    (∀ s : Str, is_wsl2_path s = true ↔ ∃ c r, isLowerAlpha c = true ∧
        asPosix s = '/' :: 'm' :: 'n' :: 't' :: '/' :: c :: '/' :: r) ∧
    is_wsl2_path "/mnt/c/home".data = true ∧
    is_wsl2_path "/home/user".data = false ∧
    is_wsl2_path "".data = false ∧
    is_wsl2_path "/mnt/c".data = false ∧
    is_wsl2_path "/mnt/C/x".data = false ∧
    is_wsl2_path "/mnt/ab/x".data = false :=
  ⟨is_wsl2_path_iff, by decide, by decide, by decide, by decide, by decide, by decide⟩

/-- C4: the bare mount root `/mnt/c` translates to exactly the drive root:
no components, rendered `c:\`, a value equal — under `PureWindowsPath`
equality — to `C:\`. -/
theorem claim_C4_bare_mount_root :
    wsl2_full_path2windows_path "/mnt/c".data = .ok ⟨['c', ':'], ['\\'], []⟩ ∧
    winStr ⟨['c', ':'], ['\\'], []⟩ = "c:\\".data ∧
    winEq ⟨['c', ':'], ['\\'], []⟩ ⟨['C', ':'], ['\\'], []⟩ = true :=
  ⟨rfl, rfl, by decide⟩

/-- C5 counterexample: on the accepted input `/mnt/c` the returned path is
rendered `c:\`: the drive letter in the rendered output is the lowercase
`c`, not an uppercase letter, so the drive is not rendered uppercase. -/
theorem claim_C5_counterexample :
    wsl2_full_path2windows_path "/mnt/c".data = .ok ⟨['c', ':'], ['\\'], []⟩ ∧
    winStr ⟨['c', ':'], ['\\'], []⟩ = ['c', ':', '\\'] ∧
    ¬ (['c', ':', '\\'] : Str) = ['C', ':', '\\'] :=
  ⟨rfl, rfl, by decide⟩

/-- C5 amended: the translator only accepts lowercase drive letters, and it
carries the accepted letter into the result unchanged: the returned drive
is `<d>:` and the rendering starts with the lowercase `<d>:`; the returned
path nevertheless compares equal, under the case-insensitive
`PureWindowsPath` equality, to the same path with any drive letter that
lowers to `d` — in particular the uppercased one. -/
theorem claim_C5_amended_drive_case (s : Str) (d : Char) (rest : Str)
    (heq : asPosix s = '/' :: 'm' :: 'n' :: 't' :: '/' :: d :: rest)
    (hd : isLowerAlpha d = true)
    (hclean : ∀ ch ∈ rest, (ch == ':') = false) :
    ∃ p : WinPath,
      wsl2_full_path2windows_path s = .ok p ∧
      p.drive = [d, ':'] ∧ p.root = ['\\'] ∧
      (winStr p).take 2 = [d, ':'] ∧
      ∀ D : Char, asciiLower D = d → winEq p ⟨[D, ':'], p.root, p.tail⟩ = true := by
  have hfa : findallMnt (asPosix s)
      = some (d, rest.takeWhile (fun ch => ch != '\n')) := by
    rw [heq]
    simp [findallMnt, hd]
  have hgsub : ∀ ch ∈ rest.takeWhile (fun ch => ch != '\n'), (ch == ':') = false :=
    fun ch hch => hclean ch (List.takeWhile_subset _ hch)
  have hnodrive : ∀ x ∈ posixParts (rest.takeWhile (fun ch => ch != '\n')),
      (winParse x).drive = [] := by
    intro x hx
    unfold posixParts at hx
    by_cases hr : (posixRoot (rest.takeWhile (fun ch => ch != '\n'))).isEmpty
    · rw [if_pos hr] at hx
      exact winParse_no_drive fun ch hch => hgsub ch (posixTail_chars hx hch)
    · rw [if_neg hr] at hx
      rcases List.mem_cons.mp hx with rfl | hx2
      · rcases posixRoot_cases (rest.takeWhile (fun ch => ch != '\n')) with h0 | h0 | h0 <;>
          rw [h0] <;> rfl
      · exact winParse_no_drive fun ch hch => hgsub ch (posixTail_chars hx2 hch)
  have hfold := fold_drive_root hnodrive ⟨[d, ':'], ['\\'], []⟩ rfl
  refine ⟨(posixParts (rest.takeWhile (fun ch => ch != '\n'))).foldl
      (fun reduced name => winJoin reduced (winParse name)) ⟨[d, ':'], ['\\'], []⟩,
    ?_, hfold.1, hfold.2, ?_, ?_⟩
  · simp only [wsl2_full_path2windows_path, hfa]
    rw [winParse_drivePrefix hd]
  · rw [winStr, if_neg (by simp [hfold.1])]
    rw [hfold.1, hfold.2]
    simp
  · intro D hD
    rw [winEq, winStr, winStr, if_neg (by simp [hfold.1]), if_neg (by simp)]
    rw [hfold.1, hfold.2]
    simp only [lowerStr, List.map_append, List.map_cons]
    rw [asciiLower_fix hd, hD]
    simp

/-- C5 amended witness: the input `/mnt/c/home` at drive `c`, uppercase
partner `C`. -/
theorem claim_C5_amended_drive_case_witness :
    ∃ p : WinPath,
      wsl2_full_path2windows_path "/mnt/c/home".data = .ok p ∧
      p.drive = ['c', ':'] ∧ p.root = ['\\'] ∧
      (winStr p).take 2 = ['c', ':'] ∧
      ∀ D : Char, asciiLower D = 'c' → winEq p ⟨[D, ':'], p.root, p.tail⟩ = true :=
  claim_C5_amended_drive_case "/mnt/c/home".data 'c' "/home".data
    (by decide) (by decide) (by decide)

/-- C6: `open_on_windows` raises `NotInspectableError` — whose message
names the offending path, the function and the module — exactly on the
paths the classifier rejects, and then does not launch the browser; on
classifier-accepted paths it translates and launches (the launch is the
returned pair) without raising. There is no UNC-style fallback: the only
outcomes are the launch and the error. -/
theorem claim_C6_open_on_windows (explorer s : Str) :
    (is_wsl2_path s = false →
      open_on_windows explorer s
        = .error (.notInspectable (notInspectableMsg (asPosix s)))) ∧
    (is_wsl2_path s = true →
      ∃ w, wsl2_full_path2windows_path s = .ok w ∧
        open_on_windows explorer s = .ok (explorer, w)) ∧
    (asPosix s) <:+: notInspectableMsg (asPosix s) ∧
    "open_on_windows".data <:+: notInspectableMsg (asPosix s) ∧
    moduleName <:+: notInspectableMsg (asPosix s) := by
  refine ⟨?_, ?_, (notInspectableMsg_names (asPosix s)).1,
    (notInspectableMsg_names (asPosix s)).2.1, (notInspectableMsg_names (asPosix s)).2.2⟩
  · intro h
    simp [open_on_windows, h]
  · intro h
    obtain ⟨w, hw⟩ := translate_ok_of_classifier h
    exact ⟨w, hw, by simp [open_on_windows, h, hw]⟩

/-- C6 witness: a rejected path produces the error with its message; an
accepted path launches. -/
theorem claim_C6_open_on_windows_witness :
    open_on_windows explorerPath "/home/u".data
      = .error (.notInspectable (notInspectableMsg "/home/u".data)) :=
  (claim_C6_open_on_windows explorerPath "/home/u".data).1 (by decide)

/-- C7: with the tool on its supported host, a `KeyboardInterrupt` during
the `try` block exits with code 1 and writes nothing, and when the body
raises a handled error (`UsageError` or `NotInspectableError`) `main`
writes exactly that error's message to `stderr` and exits with code 1; the
handler runs once — there is no retry path in `main`. -/
theorem claim_C7_main_error_paths :
    (∀ osName cwd : Str, ∀ argv1 : Option Str, ¬ osName = "nt".data →
      main osName cwd argv1 true = .exit 1 none none) ∧
    (∀ osName cwd a : Str, ∀ e : ExpError, ¬ osName = "nt".data →
      open_on_windows explorerPath
          (relative_path2absolute cwd a (some (pathResolve cwd ".".data))) = .error e →
      main osName cwd (some a) false = .exit 1 (some (messageOf e)) none) := by
  constructor
  · intro osName cwd argv1 hos
    have hbeq : (osName == "nt".data) = false := by simpa using hos
    simp [main, hbeq]
  · intro osName cwd a e hos herr
    have hbeq : (osName == "nt".data) = false := by simpa using hos
    simp [main, hbeq, herr]

/-- C7 witness: a concrete interrupt run and a concrete
`NotInspectableError` run of `main`. -/
theorem claim_C7_main_error_paths_witness :
    main "posix".data "/a/b".data (some "/x".data) true = .exit 1 none none ∧
    main "posix".data "/a/b".data (some "/home/u".data) false
      = .exit 1 (some (notInspectableMsg "/home/u".data)) none := by
  constructor
  · exact claim_C7_main_error_paths.1 "posix".data "/a/b".data (some "/x".data) (by decide)
  · exact claim_C7_main_error_paths.2 "posix".data "/a/b".data "/home/u".data
      (.notInspectable (notInspectableMsg "/home/u".data)) (by decide) rfl

/-- C8: the module docstring and the `get_path` helper promise that a
missing path argument defaults to the current working directory, and
`get_path` indeed resolves `None` to the current directory — but `main`
never calls it: it reads `sys.argv[1]` unconditionally, so with no
argument the run dies with an uncaught `IndexError` instead of opening the
current directory. -/
theorem claim_C8_no_argument_crashes :
    main "posix".data "/home/user".data none false = .uncaught "IndexError".data ∧
    get_path "/home/user".data none = "/home/user".data :=
  ⟨rfl, rfl⟩

/-- C9: whenever the strict classifier accepts a path, the translator's
regex matches as well, so `wsl2_full_path2windows_path` returns normally —
the `UsageError` branch is unreachable under the classifier
precondition. -/
theorem claim_C9_classifier_implies_translation (s : Str)
    (h : is_wsl2_path s = true) :
    ∃ w, wsl2_full_path2windows_path s = .ok w :=
  translate_ok_of_classifier h

/-- C9 witness: the classifier accepts `/mnt/c/home` and the translator
returns normally on it. -/
theorem claim_C9_classifier_implies_translation_witness :
    ∃ w, wsl2_full_path2windows_path "/mnt/c/home".data = .ok w :=
  claim_C9_classifier_implies_translation "/mnt/c/home".data (by decide)

/-- C10: `relative_path2absolute` returns an absolute input unchanged, and
with `relative_to` omitted it resolves a relative input against
`Path("..").resolve()` — the parent of the current working directory, as
the general parent equation shows — not against the current working
directory itself (the docstring's `./`): concretely, from `/a/b` the
relative `x` resolves to `/a/x`, not `/a/b/x`. -/
theorem claim_C10_relative_path2absolute :
    (∀ cwd path : Str, ∀ rto : Option Str, isAbsolutePath path = true →
      relative_path2absolute cwd path rto = path) ∧
    (∀ cwd path : Str, isAbsolutePath path = false →
      relative_path2absolute cwd path none
        = pathResolve cwd (posixJoin (pathResolve cwd "..".data) path)) ∧
    (∀ cs : List Str, (∀ x ∈ cs, goodComp x = true ∧ ¬ x = "..".data) →
      pathResolve ('/' :: joinSep '/' cs) "..".data = '/' :: joinSep '/' cs.dropLast) ∧
    relative_path2absolute "/a/b".data "x".data none = "/a/x".data ∧
    relative_path2absolute "/a/b".data "x".data (some "/a/b".data) = "/a/b/x".data ∧
    ¬ ("/a/x".data : Str) = "/a/b/x".data := by
  refine ⟨?_, ?_, ?_, rfl, rfl, by decide⟩
  · intro cwd path rto habs
    simp [relative_path2absolute, habs]
  · intro cwd path habs
    simp [relative_path2absolute, habs]
  · intro cs h
    exact pathResolve_parent (fun x hx => (h x hx).1) (fun x hx => (h x hx).2)

end Exp
